import Mathlib

/-!
Verification of the vagrant-exec wrapper: a shallow embedding of the
machine-readable output parser, the status/plugin reducers and the command
execution facade, together with proofs of the specified properties.

Strings are modelled as `String` at the record level and as `List Char`
where character-level scanning matters (escape decoding, field splitting,
the plugin description pattern).
-/

deriving instance DecidableEq for Except

namespace VagrantExec

/-! ## Character-list machinery -/

/-- If `pat` is a prefix of `s`, return the remainder of `s` after `pat`. -/
def stripPref : List Char → List Char → Option (List Char)
  | [], s => some s
  | _ :: _, [] => none
  | a :: as, b :: bs => if a = b then stripPref as bs else none

/-- Boolean substring test: does `tok` occur anywhere in the list? -/
def containsTok (tok : List Char) : List Char → Bool
  | [] => (stripPref tok []).isSome
  | c :: s => (stripPref tok (c :: s)).isSome || containsTok tok s

/-- Split a character list on a separator character.  Always returns at
least one piece; a trailing separator yields a trailing empty piece. -/
def splitOnChar (c : Char) : List Char → List (List Char)
  | [] => [[]]
  | a :: s =>
    let r := splitOnChar c s
    if a = c then [] :: r
    else
      match r with
      | [] => [[a]]
      | x :: xs => (a :: x) :: xs

/-- Split at the first occurrence of the separator, returning the piece
before it and the remainder after it; `none` when the separator is absent. -/
def splitFirst (c : Char) : List Char → Option (List Char × List Char)
  | [] => none
  | a :: s =>
    if a = c then some ([], s)
    else (splitFirst c s).map (fun p => (a :: p.1, p.2))

/-- Split on a separator into at most `n` pieces; the final piece keeps
any further separators unsplit (the semantics of a bounded split). -/
def splitN (c : Char) : Nat → List Char → List (List Char)
  | 0, s => [s]
  | 1, s => [s]
  | n + 2, s =>
    match splitFirst c s with
    | none => [s]
    | some (pre, post) => pre :: splitN c (n + 1) post

/-- Join pieces with a separator list between consecutive pieces. -/
def joinWith (sep : List Char) : List (List Char) → List Char
  | [] => []
  | [x] => x
  | x :: xs => x ++ sep ++ joinWith sep xs

/-- Apply a character-to-list substitution pointwise and concatenate. -/
def expand (g : Char → List Char) : List Char → List Char
  | [] => []
  | c :: s => g c ++ expand g s

/-- Fueled scan for the replace-all substitution; the fuel only has to
cover the length of the input, since every step consumes at least one
character. -/
def replaceAllF (pat rep : List Char) : Nat → List Char → List Char
  | 0, s => s
  | _ + 1, [] => []
  | fuel + 1, c :: s =>
    if pat.isEmpty then c :: s
    else
      match stripPref pat (c :: s) with
      | some rest => rep ++ replaceAllF pat rep fuel rest
      | none => c :: replaceAllF pat rep fuel s

/-- Replace every (leftmost-first, non-overlapping) occurrence of `pat`
by `rep`, the semantics of a replace-all substring substitution.  An empty
pattern leaves the input unchanged. -/
def replaceAll (pat rep s : List Char) : List Char :=
  replaceAllF pat rep s.length s

/-- Parse a run of decimal digits into a natural number; fails on the
empty list or any non-digit character. -/
def parseDigits (s : List Char) : Option Nat :=
  if s ≠ [] ∧ s.all (fun c => c.isDigit) then
    some (s.foldl (fun n c => 10 * n + (c.toNat - 48)) 0)
  else none

/-- Parse an optionally signed decimal integer, the shape accepted for the
timestamp field. -/
def parseInt : List Char → Option Int
  | '-' :: rest => (parseDigits rest).map (fun n => -(n : Int))
  | '+' :: rest => (parseDigits rest).map (fun n => (n : Int))
  | s => (parseDigits s).map (fun n => (n : Int))

/-! ## Data model -/

/-- Modelled from the spec: closed enumeration of known lifecycle states
(running, poweroff, saved, aborted, not_created) with a generic unknown
fallback variant; the defining code is not under src/. -/
inductive MachineState where
  | Running
  | Poweroff
  | Saved
  | Aborted
  | NotCreated
  | Unknown
deriving DecidableEq, Repr

/-- Modelled from the spec: one machine status per distinct non-empty
target, with name, provider and lifecycle state; the defining code is not
under src/.  The zero value used on first creation has an empty provider
and the unknown-state fallback. -/
structure MachineStatus where
  Name : String
  Provider : String
  State : MachineState
deriving DecidableEq, Repr

/-- Modelled from the spec: one parsed machine-readable line, with integer
timestamp, possibly-empty target, record type and decoded data fields; the
defining code is not under src/.  Field names follow the accesses
`entry.target`, `entry.mType`, `entry.data` in the wrapper source. -/
structure Record where
  timestamp : Int
  target : String
  mType : String
  data : List String
deriving DecidableEq, Repr

/-- Plugin metadata (vagrant.go): name, version and install location. -/
structure Plugin where
  Name : String
  Version : String
  Location : String
deriving DecidableEq, Repr

/-- Typed error for a command that ran but exited nonzero (command
package).  The constructor newExitError is not under src/; modelled from
the spec: it carries command name, exit code and captured standard-error
text. -/
structure ExitError where
  cmd : String
  exitCode : Int
  stderr : String
deriving DecidableEq, Repr

/-- Modelled from the spec: the error taxonomy of the wrapper.  ExitError
wraps the runner error; malformed and timestampErr are the fatal parse
errors; entryNotFound is the single-value lookup failure; msg is a plain
message error (errors.New). -/
inductive VagrantError where
  | exit (e : ExitError)
  | malformed (line : String)
  | timestampErr (field : String)
  | entryNotFound (mType : String)
  | msg (s : String)
deriving DecidableEq, Repr

/-- Outcome of attempting to run an external process, as seen by
command/runner.go: clean exit, nonzero exit with captured streams, or a
failure to even start the process. -/
inductive ProcOutcome where
  | ok (stdout stderr : String)
  | exited (code : Int) (stdout stderr : String)
  | startFailure
deriving DecidableEq, Repr

/-! ## Escape tokens and the data-field codec -/

/-- The escaped-comma placeholder token emitted by the tool, the literal
text matched by the plugin pattern in vagrant.go. -/
def ctChars : List Char :=
  ['%', '!', '(', 'V', 'A', 'G', 'R', 'A', 'N', 'T', '_', 'C', 'O', 'M', 'M', 'A', ')']

/-- Modelled from the spec: the escaped-newline placeholder token (the
spec leaves the exact token a configuration constant; a backslash-n pair
is used here). -/
def nlChars : List Char := ['\\', 'n']

/-- Modelled from the spec: encode one data field by substituting the two
escape tokens for literal newlines and then literal commas (the encoding
side of the round-trip property; the tool performs this encoding). -/
def encodeField (s : List Char) : List Char :=
  replaceAll [','] ctChars (replaceAll ['\n'] nlChars s)

/-- Modelled from the spec: decode one data field by reversing the two
substitutions exactly once, commas first and then newlines. -/
def decodeField (s : List Char) : List Char :=
  replaceAll nlChars ['\n'] (replaceAll ctChars [','] s)

/-- Modelled from the spec: the parser's decode-and-split step for the raw
data portion of a line.  An empty raw data field yields an empty data
sequence; otherwise the field is split on structural commas and each piece
is escape-decoded, so comma-escaped pieces stay single elements. -/
def parseDataField (raw : List Char) : List (List Char) :=
  if raw.isEmpty then [] else (splitOnChar ',' raw).map decodeField

/-! ## Line parser (modelled from the spec; not under src/) -/

/-- Modelled from the spec: split the input into lines on newline
boundaries, skipping any final empty line. -/
def linesOf (s : List Char) : List (List Char) :=
  let ps := splitOnChar '\n' s
  if ps.getLast? = some [] then ps.dropLast else ps

/-- Modelled from the spec: parse one machine-readable line.  The line is
split into at most four comma-separated fields (timestamp, target, type,
raw data); fewer than four fields is a MalformedRecordError, an
unparseable timestamp is an error, and the raw data is decoded and split
into the data sequence. -/
def parseLine (line : List Char) : Except VagrantError Record :=
  match splitN ',' 4 line with
  | [f0, f1, f2, f3] =>
    match parseInt f0 with
    | none => Except.error (VagrantError.timestampErr ⟨f0⟩)
    | some ts =>
      Except.ok ⟨ts, ⟨f1⟩, ⟨f2⟩, (parseDataField f3).map (fun cs => (⟨cs⟩ : String))⟩
  | _ => Except.error (VagrantError.malformed ⟨line⟩)

/-- Modelled from the spec: parse a sequence of lines in input order,
aborting on the first bad line rather than skipping it. -/
def parseLines : List (List Char) → Except VagrantError (List Record)
  | [] => Except.ok []
  | l :: ls =>
    match parseLine l with
    | Except.error e => Except.error e
    | Except.ok r =>
      match parseLines ls with
      | Except.error e => Except.error e
      | Except.ok rs => Except.ok (r :: rs)

/-- Modelled from the spec: decode a machine-readable text stream into an
ordered sequence of typed records, or fail with the first decode error. -/
def parseMachineReadable (raw : String) : Except VagrantError (List Record) :=
  parseLines (linesOf raw.data)

/-! ## State mapping and entry lookup (modelled from the spec) -/

/-- Modelled from the spec: total classification of the raw state string
into the MachineState enumeration; unrecognized strings map to the
Unknown fallback rather than failing. -/
def ToMachineState (s : String) : MachineState :=
  if s = "running" then MachineState.Running
  else if s = "poweroff" then MachineState.Poweroff
  else if s = "saved" then MachineState.Saved
  else if s = "aborted" then MachineState.Aborted
  else if s = "not_created" then MachineState.NotCreated
  else MachineState.Unknown

/-- Modelled from the spec: return the data of the first record in stream
order whose type matches, or EntryNotFoundError carrying the requested
type when none matches. -/
def pluckEntryData : List Record → String → Except VagrantError (List String)
  | [], t => Except.error (VagrantError.entryNotFound t)
  | r :: rs, t => if r.mType = t then Except.ok r.data else pluckEntryData rs t

/-! ## Command execution facade (command/runner.go) -/

/-- ShellRunner.Execute from command/runner.go: on a clean exit return
standard output with no error; on a nonzero exit return standard output
together with an ExitError carrying the command name, exit code and
captured standard-error text; on a failure to start the process the Go
code panics, modelled as `none`. -/
def Execute (cmd : String) (outcome : ProcOutcome) : Option (String × Option ExitError) :=
  match outcome with
  | ProcOutcome.ok out _ => some (out, none)
  | ProcOutcome.exited code out errText => some (out, some ⟨cmd, code, errText⟩)
  | ProcOutcome.startFailure => none

/-- The behavior of the external processes, as a function from command
name and arguments to the process outcome. -/
def Runner := String → List String → ProcOutcome

/-- wrapper.exec from vagrant.go: dispatch the vagrant binary with the
given arguments through ShellRunner.Execute. -/
def wrapperExec (runner : Runner) (args : List String) : Option (String × Option ExitError) :=
  Execute "vagrant" (runner "vagrant" args)

/-! ## Status reducer (vagrant.go, Status) -/

/-- Lookup of the in-progress status for a target in the accumulated
status map, modelled as an association list keyed by machine name. -/
def findStatus : List MachineStatus → String → Option MachineStatus
  | [], _ => none
  | st :: rest, t => if st.Name = t then some st else findStatus rest t

/-- In-place update of the entry for a target, the pointer-style mutation
of the Go map value. -/
def updStatus : List MachineStatus → String → (MachineStatus → MachineStatus) → List MachineStatus
  | [], _, _ => []
  | st :: rest, t, f => if st.Name = t then f st :: rest else st :: updStatus rest t f

/-- Fetch-or-create: the first record for a target creates an entry with
just the name populated (empty provider, unknown state). -/
def ensureStatus (acc : List MachineStatus) (t : String) : List MachineStatus :=
  if (findStatus acc t).isSome then acc else acc ++ [⟨t, "", MachineState.Unknown⟩]

/-- One step of the Status fold (vagrant.go lines 92-110): skip records
with an empty target; otherwise fetch or create the entry for the target,
then populate provider from data[0] for provider-name records and state
from the mapped data[0] for state records, ignoring any other type.  A
data[0] access on an empty data sequence is the Go out-of-range panic,
modelled as `none`. -/
def statusStep (acc : List MachineStatus) (e : Record) : Option (List MachineStatus) :=
  if e.target = "" then some acc
  else
    let acc1 := ensureStatus acc e.target
    if e.mType = "provider-name" then
      match e.data.head? with
      | none => none
      | some d => some (updStatus acc1 e.target (fun st => { st with Provider := d }))
    else if e.mType = "state" then
      match e.data.head? with
      | none => none
      | some d => some (updStatus acc1 e.target (fun st => { st with State := ToMachineState d }))
    else some acc1

/-- The Status fold over the parsed record sequence in input order. -/
def statusFold : List Record → List MachineStatus → Option (List MachineStatus)
  | [], acc => some acc
  | r :: rs, acc =>
    match statusStep acc r with
    | none => none
    | some acc1 => statusFold rs acc1

/-- buildStatuses: fold the record sequence into the list of accumulated
machine statuses (vagrant.go Status, after a successful parse). -/
def buildStatuses (recs : List Record) : Option (List MachineStatus) :=
  statusFold recs []

/-- wrapper.Status from vagrant.go: run status --machine-readable, return
a runner error unchanged, otherwise parse and fold; a panic inside the
fold is `none`. -/
def Status (runner : Runner) : Option (Except VagrantError (List MachineStatus)) :=
  match wrapperExec runner ["status", "--machine-readable"] with
  | none => none
  | some (_, some e) => some (Except.error (VagrantError.exit e))
  | some (out, none) =>
    match parseMachineReadable out with
    | Except.error e => some (Except.error e)
    | Except.ok recs => (buildStatuses recs).map Except.ok

/-- wrapper.Version from vagrant.go: run version --machine-readable,
parse, pluck the version-installed entry and return its first data field;
the data[0] access on an empty data sequence is the Go panic, `none`. -/
def Version (runner : Runner) : Option (Except VagrantError String) :=
  match wrapperExec runner ["version", "--machine-readable"] with
  | none => none
  | some (_, some e) => some (Except.error (VagrantError.exit e))
  | some (out, none) =>
    match parseMachineReadable out with
    | Except.error e => some (Except.error e)
    | Except.ok recs =>
      match pluckEntryData recs "version-installed" with
      | Except.error e => some (Except.error e)
      | Except.ok data => (data.head?).map (fun v => Except.ok v)

/-! ## Plugin extractor (vagrant.go, PluginList) -/

/-- Character class of the name group in the plugin pattern: ASCII word
characters or a hyphen. -/
def isWordHyphen (c : Char) : Bool :=
  c.isAlphanum || c = '_' || c = '-'

/-- The whitespace class of the plugin pattern (space, tab, newline,
form feed, carriage return). -/
def isSpaceRE (c : Char) : Bool :=
  c = ' ' || c = '\t' || c = '\n' || c = '\x0c' || c = '\r'

/-- ASCII lowercase letter class of the location group. -/
def isLowerAZ (c : Char) : Bool :=
  'a' ≤ c && c ≤ 'z'

/-- After the comma token: one whitespace character, then a nonempty run
of lowercase letters (the location), then a closing parenthesis ending the
string; returns the location. -/
def suffixOK (post : List Char) : Option (List Char) :=
  match post with
  | [] => none
  | w :: rest =>
    if isSpaceRE w ∧ rest.getLast? = some ')' ∧ rest.dropLast ≠ [] ∧
        (rest.dropLast).all isLowerAZ then
      some rest.dropLast
    else none

/-- Scan the body between the opening parenthesis and the end of the
string for the last occurrence of the comma token whose suffix matches,
preferring later occurrences (the greedy dot-star takes the longest
version); the version group cannot span a newline, so occurrences at or
beyond a newline are rejected.  Returns (version, location). -/
def lastGood : List Char → Option (List Char × List Char)
  | [] => none
  | c :: rest =>
    if c = '\n' then none
    else
      match lastGood rest with
      | some (v, loc) => some (c :: v, loc)
      | none =>
        match stripPref ctChars (c :: rest) with
        | some post => (suffixOK post).map (fun loc => (([] : List Char), loc))
        | none => none

/-- The anchored plugin description pattern of vagrant.go: a nonempty run
of word-or-hyphen characters (the name), one whitespace character, an
opening parenthesis, a greedy newline-free version group, the literal
comma token, one whitespace character, a nonempty lowercase location and
a final closing parenthesis.  Returns the three submatches or `none` when
the description does not match. -/
def pluginMatch (s : List Char) : Option (List Char × List Char × List Char) :=
  let name := s.takeWhile isWordHyphen
  match s.dropWhile isWordHyphen with
  | w :: '(' :: body =>
    if name ≠ [] ∧ isSpaceRE w then
      (lastGood body).map (fun p => (name, p.1, p.2))
    else none
  | _ => none

/-- The PluginList extraction loop (vagrant.go lines 152-162): every
record of type ui contributes one plugin built from the three submatches
of its second data field.  A missing second data field or a non-matching
description is the Go index-out-of-range panic on the nil match list,
modelled as `none`. -/
def PluginList : List Record → Option (List Plugin)
  | [] => some []
  | e :: rest =>
    if e.mType = "ui" then
      match e.data[1]? with
      | none => none
      | some d =>
        match pluginMatch d.data with
        | none => none
        | some (n, v, l) =>
          (PluginList rest).map (fun ps => (⟨⟨n⟩, ⟨v⟩, ⟨l⟩⟩ : Plugin) :: ps)
    else PluginList rest

/-- wrapper.PluginInstall from vagrant.go: reject a plugin without a name
before running anything, otherwise build the argument list (name, then an
optional version flag, then an optional local flag) and dispatch it.  The
second component records the commands actually dispatched. -/
def PluginInstall (runner : Runner) (plugin : Plugin) :
    Option (Except VagrantError Unit) × List (String × List String) :=
  if plugin.Name.length = 0 then
    (some (Except.error (VagrantError.msg "plugin must have a name")), [])
  else
    let cmdArgs := ["plugin", "install", plugin.Name]
      ++ (if plugin.Version.length > 0 then ["--plugin-version", plugin.Version] else [])
      ++ (if plugin.Location = "local" then ["--local"] else [])
    (match wrapperExec runner cmdArgs with
      | none => none
      | some (_, some e) => some (Except.error (VagrantError.exit e))
      | some (_, none) => some (Except.ok ()), [("vagrant", cmdArgs)])

/-! ## Helper lemmas: prefix stripping and substring occurrence -/

theorem stripPref_append_self : ∀ (p t : List Char), stripPref p (p ++ t) = some t := by
  intro p t
  induction p with
  | nil => rfl
  | cons a as ih => simp [stripPref, ih]

theorem stripPref_eq_some : ∀ (p s r : List Char), stripPref p s = some r → s = p ++ r := by
  intro p
  induction p with
  | nil => intro s r h; simp [stripPref] at h; simp [h]
  | cons a as ih =>
    intro s r h
    cases s with
    | nil => simp [stripPref] at h
    | cons b bs =>
      simp only [stripPref] at h
      by_cases hab : a = b
      · subst hab
        simp only [if_pos rfl] at h
        simpa using ih bs r h
      · simp [if_neg hab] at h

theorem containsTok_tail_false {tok : List Char} {c : Char} {s : List Char}
    (h : containsTok tok (c :: s) = false) : containsTok tok s = false := by
  simp only [containsTok, Bool.or_eq_false_iff] at h
  exact h.2

theorem containsTok_head_none {tok : List Char} {c : Char} {s : List Char}
    (h : containsTok tok (c :: s) = false) : stripPref tok (c :: s) = none := by
  simp only [containsTok, Bool.or_eq_false_iff] at h
  exact Option.not_isSome_iff_eq_none.mp (by simp [h.1])

/-! ## Helper lemmas: the replace-all substitution -/

theorem stripPref_some_length {pat s rest : List Char} (hp : pat ≠ [])
    (h : stripPref pat s = some rest) : rest.length < s.length := by
  have h2 := stripPref_eq_some pat s rest h
  have h3 : s.length = pat.length + rest.length := by simp [h2]
  have hpat1 : 1 ≤ pat.length := by
    cases pat with
    | nil => exact absurd rfl hp
    | cons _ _ => simp
  omega

theorem replaceAllF_fuel (pat rep : List Char) :
    ∀ fuel s, s.length ≤ fuel → replaceAllF pat rep fuel s = replaceAllF pat rep s.length s := by
  intro fuel
  induction fuel using Nat.strong_induction_on with
  | _ fuel ih =>
    intro s hs
    match fuel, s with
    | 0, s =>
      cases s with
      | nil => rfl
      | cons c t => simp at hs
    | f + 1, [] => rfl
    | f + 1, c :: s =>
      have hs1 : s.length ≤ f := by simpa using hs
      by_cases hp : pat.isEmpty
      · simp [replaceAllF, hp]
      · have hp2 : pat ≠ [] := by cases pat <;> simp_all [List.isEmpty]
        have hpe : pat.isEmpty = false := by simpa using hp
        cases hsp : stripPref pat (c :: s) with
        | some rest =>
          have hr : rest.length < s.length + 1 := stripPref_some_length hp2 hsp
          have h1 : replaceAllF pat rep f rest = replaceAllF pat rep rest.length rest :=
            ih f (by omega) rest (by omega)
          have h2 : replaceAllF pat rep s.length rest = replaceAllF pat rep rest.length rest :=
            ih s.length (by omega) rest (by omega)
          simp [replaceAllF, hpe, hsp, h1, h2]
        | none =>
          have h1 : replaceAllF pat rep f s = replaceAllF pat rep s.length s :=
            ih f (by omega) s (by omega)
          simp [replaceAllF, hpe, hsp, h1]

theorem replaceAll_nil (pat rep : List Char) : replaceAll pat rep [] = [] := rfl

theorem replaceAll_cons_match {pat : List Char} (rep : List Char) {c : Char} {s rest : List Char}
    (hp : pat ≠ []) (h : stripPref pat (c :: s) = some rest) :
    replaceAll pat rep (c :: s) = rep ++ replaceAll pat rep rest := by
  have hpe : pat.isEmpty = false := by cases pat <;> simp_all [List.isEmpty]
  have hr : rest.length < s.length + 1 := stripPref_some_length hp h
  have h1 : replaceAllF pat rep s.length rest = replaceAllF pat rep rest.length rest :=
    replaceAllF_fuel pat rep s.length rest (by omega)
  simp [replaceAll, replaceAllF, hpe, h, h1]

theorem replaceAll_cons_nomatch {pat : List Char} (rep : List Char) {c : Char} {s : List Char}
    (h : stripPref pat (c :: s) = none) :
    replaceAll pat rep (c :: s) = c :: replaceAll pat rep s := by
  have hp : pat ≠ [] := by
    intro he
    subst he
    simp [stripPref] at h
  have hpe : pat.isEmpty = false := by cases pat <;> simp_all [List.isEmpty]
  simp [replaceAll, replaceAllF, hpe, h]

theorem replaceAll_append_self {pat : List Char} (rep : List Char) (t : List Char)
    (hp : pat ≠ []) : replaceAll pat rep (pat ++ t) = rep ++ replaceAll pat rep t := by
  cases pat with
  | nil => exact absurd rfl hp
  | cons p0 pr =>
    have hstrip : stripPref (p0 :: pr) (p0 :: (pr ++ t)) = some t :=
      stripPref_append_self (p0 :: pr) t
    simpa using replaceAll_cons_match rep hp hstrip

/-! ## Helper lemmas: pointwise expansion -/

theorem expand_cons (g : Char → List Char) (c : Char) (s : List Char) :
    expand g (c :: s) = g c ++ expand g s := rfl

theorem expand_append (g : Char → List Char) :
    ∀ a b, expand g (a ++ b) = expand g a ++ expand g b := by
  intro a b
  induction a with
  | nil => rfl
  | cons c s ih => simp [expand, ih]

theorem expand_expand (g h : Char → List Char) :
    ∀ s, expand h (expand g s) = expand (fun c => expand h (g c)) s := by
  intro s
  induction s with
  | nil => rfl
  | cons c s ih => simp [expand, expand_append, ih]

theorem expand_congr {g g2 : Char → List Char} (hg : ∀ c, g c = g2 c) :
    ∀ s, expand g s = expand g2 s := by
  intro s
  induction s with
  | nil => rfl
  | cons c s ih => simp [expand, hg c, ih]

theorem replaceAll_single (c : Char) (rep : List Char) :
    ∀ s, replaceAll [c] rep s = expand (fun a => if a = c then rep else [a]) s := by
  intro s
  induction s with
  | nil => rfl
  | cons a s ih =>
    by_cases hac : c = a
    · subst hac
      have hstrip : stripPref [c] (c :: s) = some s := by simp [stripPref]
      rw [replaceAll_cons_match rep (by simp) hstrip, ih]
      simp [expand]
    · have hac2 : ¬(a = c) := fun h => hac h.symm
      have hstrip : stripPref [c] (a :: s) = none := by simp [stripPref, hac]
      rw [replaceAll_cons_nomatch rep hstrip, ih]
      simp [expand, hac2]

/-! ## Helper lemmas: the field codec -/

/-- Pointwise form of the full field encoding: a newline becomes the
newline token, a comma becomes the comma token, anything else is kept. -/
def encChar (c : Char) : List Char :=
  if c = '\n' then nlChars else if c = ',' then ctChars else [c]

/-- Pointwise form of the newline-only encoding, the intermediate state
after the comma decoding pass. -/
def nlEncChar (c : Char) : List Char :=
  if c = '\n' then nlChars else [c]

theorem encodeField_eq_expand : ∀ s, encodeField s = expand encChar s := by
  intro s
  unfold encodeField
  rw [replaceAll_single '\n' nlChars s, replaceAll_single ',' ctChars, expand_expand]
  apply expand_congr
  intro c
  by_cases hn : c = '\n'
  · subst hn
    simp [nlEncChar, encChar]
    rfl
  · by_cases hc : c = ','
    · subst hc
      simp [encChar, hn]
      rfl
    · simp [encChar, hn, hc]
      simp [expand, hc]

theorem stripPref_expand_encChar :
    ∀ (u W : List Char), (∀ c ∈ W, c ≠ ',' ∧ c ≠ '\n' ∧ c ≠ '%' ∧ c ≠ '\\') →
      (stripPref W (expand encChar u)).isSome = (stripPref W u).isSome := by
  intro u
  induction u with
  | nil => intro W _; rfl
  | cons v u ih =>
    intro W hW
    cases W with
    | nil => rfl
    | cons w W =>
      have hw := hW w (by simp)
      rw [expand_cons]
      by_cases hn : v = '\n'
      · subst hn
        simp [encChar, nlChars, stripPref, hw.2.2.2, hw.2.1]
      · by_cases hc : v = ','
        · subst hc
          simp [encChar, ctChars, stripPref, hw.2.2.1, hw.1]
        · rw [show encChar v = [v] by simp [encChar, hn, hc]]
          by_cases hwv : w = v
          · subst hwv
            simp only [List.singleton_append, stripPref, if_pos rfl]
            exact ih W (fun c hcW => hW c (by simp [hcW]))
          · simp [stripPref, hwv]

theorem stripPref_expand_nlEncChar :
    ∀ (u W : List Char), (∀ c ∈ W, c ≠ '\n' ∧ c ≠ '\\') →
      (stripPref W (expand nlEncChar u)).isSome = (stripPref W u).isSome := by
  intro u
  induction u with
  | nil => intro W _; rfl
  | cons v u ih =>
    intro W hW
    cases W with
    | nil => rfl
    | cons w W =>
      have hw := hW w (by simp)
      rw [expand_cons]
      by_cases hn : v = '\n'
      · subst hn
        simp [nlEncChar, nlChars, stripPref, hw.2, hw.1]
      · rw [show nlEncChar v = [v] by simp [nlEncChar, hn]]
        by_cases hwv : w = v
        · subst hwv
          simp only [List.singleton_append, stripPref, if_pos rfl]
          exact ih W (fun c hcW => hW c (by simp [hcW]))
        · simp [stripPref, hwv]

theorem decode_pass1 :
    ∀ s, containsTok ctChars s = false →
      replaceAll ctChars [','] (expand encChar s) = expand nlEncChar s := by
  intro s
  induction s with
  | nil => intro _; rfl
  | cons v s ih =>
    intro h
    have hTail := containsTok_tail_false h
    have hHead := containsTok_head_none h
    rw [expand_cons]
    by_cases hc : v = ','
    · subst hc
      rw [show encChar ',' = ctChars by decide,
        replaceAll_append_self [','] (expand encChar s) (by decide), ih hTail]
      simp [expand_cons, nlEncChar]
    · by_cases hn : v = '\n'
      · subst hn
        rw [show encChar '\n' = nlChars by decide, show nlChars = ['\\', 'n'] from rfl]
        rw [show (['\\', 'n'] : List Char) ++ expand encChar s
            = '\\' :: 'n' :: expand encChar s from rfl]
        rw [replaceAll_cons_nomatch [','] (by simp [stripPref, ctChars]),
          replaceAll_cons_nomatch [','] (by simp [stripPref, ctChars]), ih hTail]
        simp [expand_cons, nlEncChar, nlChars]
      · rw [show encChar v = [v] by simp [encChar, hn, hc], List.singleton_append]
        have hnone : stripPref ctChars (v :: expand encChar s) = none := by
          by_cases hv : v = '%'
          · subst hv
            have hq := stripPref_expand_encChar s (ctChars.tail) (by decide)
            have h0 : stripPref (ctChars.tail) s = none := by
              simpa [ctChars, stripPref] using hHead
            have h1 : stripPref (ctChars.tail) (expand encChar s) = none := by
              apply Option.not_isSome_iff_eq_none.mp
              rw [hq, h0]
              simp
            simpa [ctChars, stripPref] using h1
          · simp [ctChars, stripPref, Ne.symm hv]
        rw [replaceAll_cons_nomatch [','] hnone, ih hTail]
        rw [expand_cons, show nlEncChar v = [v] by simp [nlEncChar, hn], List.singleton_append]

theorem decode_pass2 :
    ∀ s, containsTok nlChars s = false →
      replaceAll nlChars ['\n'] (expand nlEncChar s) = s := by
  intro s
  induction s with
  | nil => intro _; rfl
  | cons v s ih =>
    intro h
    have hTail := containsTok_tail_false h
    have hHead := containsTok_head_none h
    rw [expand_cons]
    by_cases hn : v = '\n'
    · subst hn
      rw [show nlEncChar '\n' = nlChars by decide,
        replaceAll_append_self ['\n'] (expand nlEncChar s) (by decide), ih hTail]
      rfl
    · rw [show nlEncChar v = [v] by simp [nlEncChar, hn], List.singleton_append]
      have hnone : stripPref nlChars (v :: expand nlEncChar s) = none := by
        by_cases hv : v = '\\'
        · subst hv
          have hq := stripPref_expand_nlEncChar s ['n'] (by decide)
          have h0 : stripPref ['n'] s = none := by
            simpa [nlChars, stripPref] using hHead
          have h1 : stripPref ['n'] (expand nlEncChar s) = none := by
            apply Option.not_isSome_iff_eq_none.mp
            rw [hq, h0]
            simp
          simpa [nlChars, stripPref] using h1
        · simp [nlChars, stripPref, Ne.symm hv]
      rw [replaceAll_cons_nomatch ['\n'] hnone, ih hTail]

theorem decodeField_encodeField {f : List Char}
    (hct : containsTok ctChars f = false) (hnl : containsTok nlChars f = false) :
    decodeField (encodeField f) = f := by
  unfold decodeField
  rw [encodeField_eq_expand, decode_pass1 f hct, decode_pass2 f hnl]

theorem comma_not_mem_encodeField : ∀ f, ',' ∉ encodeField f := by
  intro f
  rw [encodeField_eq_expand]
  induction f with
  | nil => simp [expand]
  | cons c s ih =>
    simp only [expand, List.mem_append]
    rintro (h | h)
    · by_cases hn : c = '\n'
      · simp [encChar, hn] at h
        revert h
        decide
      · by_cases hc : c = ','
        · simp [encChar, hn, hc] at h
          revert h
          decide
        · simp [encChar, hn, hc] at h
          exact hc h.symm
    · exact ih h

theorem encodeField_ne_nil {f : List Char} (h : f ≠ []) : encodeField f ≠ [] := by
  rw [encodeField_eq_expand]
  cases f with
  | nil => exact absurd rfl h
  | cons c s =>
    simp only [expand]
    have : encChar c ≠ [] := by
      by_cases hn : c = '\n'
      · simp [encChar, hn, nlChars]
      · by_cases hc : c = ','
        · simp [encChar, hn, hc, ctChars]
        · simp [encChar, hn, hc]
    simp [this]

/-! ## Helper lemmas: splitting and joining -/

theorem splitOnChar_ne_nil (c : Char) : ∀ s, splitOnChar c s ≠ [] := by
  intro s
  cases s with
  | nil => simp [splitOnChar]
  | cons a t =>
    simp only [splitOnChar]
    by_cases hac : a = c
    · simp [hac]
    · simp only [hac, if_neg, Bool.false_eq_true]
      cases splitOnChar c t <;> simp

theorem headD_cons_tail {α : Type} (d : α) : ∀ (l : List α), l ≠ [] → l.headD d :: l.tail = l := by
  intro l h
  cases l with
  | nil => exact absurd rfl h
  | cons x xs => rfl

theorem splitOnChar_prepend (c : Char) :
    ∀ (w s : List Char), c ∉ w →
      splitOnChar c (w ++ s) =
        (w ++ (splitOnChar c s).headD []) :: (splitOnChar c s).tail := by
  intro w
  induction w with
  | nil =>
    intro s _
    simp only [List.nil_append]
    exact (headD_cons_tail [] (splitOnChar c s) (splitOnChar_ne_nil c s)).symm
  | cons a w ih =>
    intro s hmem
    have hac : ¬(a = c) := by
      intro h
      exact hmem (by simp [h])
    have hw : c ∉ w := fun h => hmem (by simp [h])
    rw [List.cons_append]
    simp only [splitOnChar, hac, if_neg, Bool.false_eq_true]
    rw [ih s hw]
    simp

theorem splitOnChar_nosep (c : Char) (w : List Char) (h : c ∉ w) :
    splitOnChar c w = [w] := by
  have := splitOnChar_prepend c w [] h
  simpa [splitOnChar] using this

theorem splitOnChar_joinWith (c : Char) :
    ∀ es, es ≠ [] → (∀ e ∈ es, c ∉ e) → splitOnChar c (joinWith [c] es) = es := by
  intro es
  induction es with
  | nil => intro h _; exact absurd rfl h
  | cons e es ih =>
    intro _ hmem
    cases es with
    | nil =>
      simp only [joinWith]
      exact splitOnChar_nosep c e (hmem e (by simp))
    | cons e2 rest =>
      have he : c ∉ e := hmem e (by simp)
      rw [show joinWith [c] (e :: e2 :: rest) = e ++ ([c] ++ joinWith [c] (e2 :: rest)) by
        simp [joinWith]]
      rw [splitOnChar_prepend c e _ he]
      have hJ : splitOnChar c ([c] ++ joinWith [c] (e2 :: rest)) =
          [] :: splitOnChar c (joinWith [c] (e2 :: rest)) := by
        simp [splitOnChar]
      rw [hJ, ih (by simp) (fun x hx => hmem x (by simp [hx]))]
      simp

theorem joinWith_encode_ne_nil {l : List (List Char)} (h1 : l ≠ []) (h2 : l ≠ [[]]) :
    joinWith [','] (l.map encodeField) ≠ [] := by
  cases l with
  | nil => exact absurd rfl h1
  | cons x xs =>
    cases xs with
    | nil =>
      have hx : x ≠ [] := by
        intro he
        exact h2 (by simp [he])
      simpa [joinWith] using encodeField_ne_nil hx
    | cons y ys =>
      simp only [List.map_cons, joinWith]
      intro hcontra
      have : (',' : Char) ∈ ([] : List Char) := by
        rw [← hcontra]
        simp
      simp at this

/-! ## Helper lemmas: status reducer -/

/-- The precondition guarding the data[0] accesses of the Status fold:
every record with a non-empty target and type provider-name or state
carries at least one data element. -/
def dataOk (recs : List Record) : Prop :=
  ∀ r ∈ recs, r.target ≠ "" → (r.mType = "provider-name" ∨ r.mType = "state") → r.data ≠ []

instance dataOk_decidable (recs : List Record) : Decidable (dataOk recs) := by
  unfold dataOk
  infer_instance

theorem findStatus_name : ∀ (l : List MachineStatus) (t : String) (st : MachineStatus),
    findStatus l t = some st → st.Name = t := by
  intro l t st h
  induction l with
  | nil => simp [findStatus] at h
  | cons x xs ih =>
    simp only [findStatus] at h
    by_cases hx : x.Name = t
    · rw [if_pos hx] at h
      cases h
      exact hx
    · rw [if_neg hx] at h
      exact ih h

theorem findStatus_isSome_iff : ∀ (l : List MachineStatus) (t : String),
    (findStatus l t).isSome = true ↔ t ∈ l.map MachineStatus.Name := by
  intro l t
  induction l with
  | nil => simp [findStatus]
  | cons x xs ih =>
    simp only [findStatus, List.map_cons, List.mem_cons]
    by_cases hx : x.Name = t
    · simp [hx]
    · simp only [if_neg hx, ih]
      constructor
      · intro h; exact Or.inr h
      · rintro (h | h)
        · exact absurd h.symm hx
        · exact h

theorem names_updStatus : ∀ (l : List MachineStatus) (t : String)
    (f : MachineStatus → MachineStatus), (∀ st, (f st).Name = st.Name) →
    (updStatus l t f).map MachineStatus.Name = l.map MachineStatus.Name := by
  intro l t f hf
  induction l with
  | nil => rfl
  | cons x xs ih =>
    simp only [updStatus]
    by_cases hx : x.Name = t
    · simp [hx, hf]
    · simp [hx, ih]

theorem names_ensureStatus (acc : List MachineStatus) (t : String) :
    (ensureStatus acc t).map MachineStatus.Name =
      if t ∈ acc.map MachineStatus.Name then acc.map MachineStatus.Name
      else acc.map MachineStatus.Name ++ [t] := by
  unfold ensureStatus
  by_cases h : (findStatus acc t).isSome
  · rw [if_pos h, if_pos ((findStatus_isSome_iff acc t).mp h)]
  · rw [if_neg h, if_neg (fun hmem => h ((findStatus_isSome_iff acc t).mpr hmem))]
    simp

theorem findStatus_append : ∀ (a b : List MachineStatus) (t : String),
    findStatus (a ++ b) t = ((findStatus a t).orElse (fun _ => findStatus b t)) := by
  intro a b t
  induction a with
  | nil => simp [findStatus]
  | cons x xs ih =>
    simp only [List.cons_append, findStatus]
    by_cases hx : x.Name = t
    · simp [hx]
    · simp [hx, ih]

theorem findStatus_updStatus : ∀ (l : List MachineStatus) (t : String)
    (f : MachineStatus → MachineStatus), (∀ st, (f st).Name = st.Name) →
    findStatus (updStatus l t f) t = (findStatus l t).map f := by
  intro l t f hf
  induction l with
  | nil => rfl
  | cons x xs ih =>
    simp only [updStatus]
    by_cases hx : x.Name = t
    · simp [findStatus, hx, hf]
    · simp [findStatus, hx, ih]

theorem findStatus_ensureStatus (acc : List MachineStatus) (t : String) :
    findStatus (ensureStatus acc t) t =
      some ((findStatus acc t).getD ⟨t, "", MachineState.Unknown⟩) := by
  unfold ensureStatus
  cases hf : findStatus acc t with
  | some st => simp [hf]
  | none =>
    rw [if_neg (by simp [hf])]
    rw [findStatus_append, hf]
    simp [findStatus]

theorem statusStep_isSome (acc : List MachineStatus) (e : Record)
    (h : e.target ≠ "" → (e.mType = "provider-name" ∨ e.mType = "state") → e.data ≠ []) :
    (statusStep acc e).isSome = true := by
  unfold statusStep
  by_cases ht : e.target = ""
  · simp [ht]
  · rw [if_neg ht]
    by_cases hp : e.mType = "provider-name"
    · have hd : e.data ≠ [] := h ht (Or.inl hp)
      cases hdata : e.data with
      | nil => exact absurd hdata hd
      | cons d ds => simp [hp, hdata]
    · by_cases hs : e.mType = "state"
      · have hd : e.data ≠ [] := h ht (Or.inr hs)
        cases hdata : e.data with
        | nil => exact absurd hdata hd
        | cons d ds => simp [hp, hs, hdata]
      · simp [hp, hs]

theorem names_statusStep {acc acc2 : List MachineStatus} {e : Record}
    (h : statusStep acc e = some acc2) :
    acc2.map MachineStatus.Name =
      if e.target = "" ∨ e.target ∈ acc.map MachineStatus.Name then
        acc.map MachineStatus.Name
      else acc.map MachineStatus.Name ++ [e.target] := by
  unfold statusStep at h
  by_cases ht : e.target = ""
  · rw [if_pos ht] at h
    cases h
    simp [ht]
  · rw [if_neg ht] at h
    have hens : ∀ acc3, acc3 = ensureStatus acc e.target →
        acc3.map MachineStatus.Name =
          if e.target = "" ∨ e.target ∈ acc.map MachineStatus.Name then
            acc.map MachineStatus.Name
          else acc.map MachineStatus.Name ++ [e.target] := by
      intro acc3 h3
      rw [h3, names_ensureStatus]
      by_cases hmem : e.target ∈ acc.map MachineStatus.Name
      · simp [hmem]
      · simp [hmem, ht]
    by_cases hp : e.mType = "provider-name"
    · rw [if_pos hp] at h
      cases hdata : e.data with
      | nil => rw [hdata] at h; simp at h
      | cons d ds =>
        rw [hdata] at h
        simp only [List.head?] at h
        cases h
        have hf : ∀ st : MachineStatus,
            ({ st with Provider := d } : MachineStatus).Name = st.Name := fun _ => rfl
        rw [names_updStatus _ _ _ hf]
        exact hens _ rfl
    · rw [if_neg hp] at h
      by_cases hs : e.mType = "state"
      · rw [if_pos hs] at h
        cases hdata : e.data with
        | nil => rw [hdata] at h; simp at h
        | cons d ds =>
          rw [hdata] at h
          simp only [List.head?] at h
          cases h
          have hf : ∀ st : MachineStatus,
              ({ st with State := ToMachineState d } : MachineStatus).Name = st.Name :=
            fun _ => rfl
          rw [names_updStatus _ _ _ hf]
          exact hens _ rfl
      · rw [if_neg hs] at h
        cases h
        exact hens _ rfl

/-- The first-seen accumulation of non-empty targets performed by the
Status fold, stated directly on names. -/
def insertTargets (ns : List String) (recs : List Record) : List String :=
  recs.foldl
    (fun ns r => if r.target = "" ∨ r.target ∈ ns then ns else ns ++ [r.target]) ns

theorem insertTargets_nil (ns : List String) : insertTargets ns [] = ns := rfl

theorem insertTargets_cons (ns : List String) (r : Record) (rs : List Record) :
    insertTargets ns (r :: rs) =
      insertTargets (if r.target = "" ∨ r.target ∈ ns then ns else ns ++ [r.target]) rs := rfl

theorem statusFold_some_names :
    ∀ (recs : List Record) (acc : List MachineStatus), dataOk recs →
      ∃ l, statusFold recs acc = some l ∧
        l.map MachineStatus.Name = insertTargets (acc.map MachineStatus.Name) recs := by
  intro recs
  induction recs with
  | nil => intro acc _; exact ⟨acc, rfl, rfl⟩
  | cons r rs ih =>
    intro acc hdo
    have hstep : (statusStep acc r).isSome = true :=
      statusStep_isSome acc r (fun ht hty => hdo r (by simp) ht hty)
    cases hs : statusStep acc r with
    | none => rw [hs] at hstep; simp at hstep
    | some acc2 =>
      have hdo2 : dataOk rs := fun x hx => hdo x (by simp [hx])
      obtain ⟨l, hl, hnames⟩ := ih acc2 hdo2
      refine ⟨l, ?_, ?_⟩
      · simp [statusFold, hs, hl]
      · rw [hnames, names_statusStep hs, insertTargets_cons]

theorem insertTargets_nodup :
    ∀ (recs : List Record) (ns : List String), ns.Nodup → (insertTargets ns recs).Nodup := by
  intro recs
  induction recs with
  | nil => intro ns h; exact h
  | cons r rs ih =>
    intro ns h
    rw [insertTargets_cons]
    by_cases hg : r.target = "" ∨ r.target ∈ ns
    · rw [if_pos hg]
      exact ih ns h
    · rw [if_neg hg]
      apply ih
      have hmem : r.target ∉ ns := fun hm => hg (Or.inr hm)
      simp [List.nodup_append, h, hmem]

theorem mem_insertTargets :
    ∀ (recs : List Record) (ns : List String) (t : String),
      t ∈ insertTargets ns recs ↔ t ∈ ns ∨ (t ≠ "" ∧ t ∈ recs.map Record.target) := by
  intro recs
  induction recs with
  | nil => intro ns t; simp [insertTargets_nil]
  | cons r rs ih =>
    intro ns t
    rw [insertTargets_cons, ih]
    simp only [List.map_cons, List.mem_cons]
    by_cases hg : r.target = "" ∨ r.target ∈ ns
    · rw [if_pos hg]
      constructor
      · rintro (h | ⟨hne, h⟩)
        · exact Or.inl h
        · exact Or.inr ⟨hne, Or.inr h⟩
      · rintro (h | ⟨hne, h | h⟩)
        · exact Or.inl h
        · subst h
          cases hg with
          | inl h0 => exact absurd h0 hne
          | inr h0 => exact Or.inl h0
        · exact Or.inr ⟨hne, h⟩
    · rw [if_neg hg]
      have hte : r.target ≠ "" := fun h0 => hg (Or.inl h0)
      constructor
      · rintro (h | ⟨hne, h⟩)
        · rcases List.mem_append.mp h with h1 | h1
          · exact Or.inl h1
          · have h2 : t = r.target := by simpa using h1
            subst h2
            exact Or.inr ⟨hte, Or.inl rfl⟩
        · exact Or.inr ⟨hne, Or.inr h⟩
      · rintro (h | ⟨hne, h | h⟩)
        · exact Or.inl (List.mem_append.mpr (Or.inl h))
        · subst h
          exact Or.inl (List.mem_append.mpr (Or.inr (by simp)))
        · exact Or.inr ⟨hne, h⟩

/-! ## Helper lemmas: entry lookup -/

theorem pluck_error_iff : ∀ (recs : List Record) (t : String),
    pluckEntryData recs t = Except.error (VagrantError.entryNotFound t) ↔
      ∀ r ∈ recs, r.mType ≠ t := by
  intro recs t
  induction recs with
  | nil => simp [pluckEntryData]
  | cons r rs ih =>
    simp only [pluckEntryData]
    by_cases hr : r.mType = t
    · simp [hr]
    · simp [hr, ih]

theorem pluck_first : ∀ (pre : List Record) (r : Record) (post : List Record) (t : String),
    r.mType = t → (∀ r2 ∈ pre, r2.mType ≠ t) →
    pluckEntryData (pre ++ r :: post) t = Except.ok r.data := by
  intro pre
  induction pre with
  | nil =>
    intro r post t hr _
    simp [pluckEntryData, hr]
  | cons p ps ih =>
    intro r post t hr hpre
    have hp : p.mType ≠ t := hpre p (by simp)
    simp only [List.cons_append, pluckEntryData, hp, if_neg, Bool.false_eq_true]
    exact ih r post t hr (fun r2 h2 => hpre r2 (by simp [h2]))

/-! ## Helper lemmas: parser abort behavior -/

/-- Is an Except value a success? -/
def isOkE {ε α : Type} : Except ε α → Bool
  | Except.ok _ => true
  | Except.error _ => false

theorem splitFirst_eq_some (c : Char) : ∀ (s pre post : List Char),
    splitFirst c s = some (pre, post) → s = pre ++ c :: post ∧ c ∉ pre := by
  intro s
  induction s with
  | nil => intro pre post h; simp [splitFirst] at h
  | cons a t ih =>
    intro pre post h
    simp only [splitFirst] at h
    by_cases hac : a = c
    · rw [if_pos hac] at h
      cases h
      simpa using hac
    · rw [if_neg hac] at h
      cases hsf : splitFirst c t with
      | none => simp [hsf] at h
      | some p =>
        rw [hsf] at h
        simp only [Option.map, Option.some.injEq, Prod.mk.injEq] at h
        obtain ⟨hp1, hp2⟩ := h
        subst hp1
        subst hp2
        obtain ⟨h1, h2⟩ := ih p.1 p.2 (by rw [hsf])
        constructor
        · simp [h1]
        · simp only [List.mem_cons]
          rintro (h3 | h3)
          · exact hac h3.symm
          · exact h2 h3

theorem splitN_length_le (c : Char) :
    ∀ (n : Nat) (s : List Char), (splitN c n s).length ≤ s.count c + 1 := by
  intro n
  induction n with
  | zero => intro s; simp [splitN]
  | succ m ih =>
    intro s
    match m with
    | 0 => simp [splitN]
    | m + 1 =>
      cases hsf : splitFirst c s with
      | none =>
        simp only [splitN, hsf, List.length_singleton]
        omega
      | some p =>
        obtain ⟨h1, h2⟩ := splitFirst_eq_some c s p.1 p.2 (by rw [hsf])
        have hcount : s.count c = p.2.count c + 1 := by
          rw [h1]
          rw [List.count_append, List.count_cons]
          have : p.1.count c = 0 := List.count_eq_zero.mpr h2
          simp [this]
        have hind := ih p.2
        simp only [splitN, hsf, List.length_cons]
        omega

theorem parseLine_malformed {line : List Char} (h : line.count ',' < 3) :
    parseLine line = Except.error (VagrantError.malformed ⟨line⟩) := by
  have hlen : (splitN ',' 4 line).length < 4 := by
    have := splitN_length_le ',' 4 line
    omega
  unfold parseLine
  rcases hf : splitN ',' 4 line with _ | ⟨a, _ | ⟨b, _ | ⟨c, _ | ⟨d, rest⟩⟩⟩⟩
  · rfl
  · rfl
  · rfl
  · rfl
  · rw [hf] at hlen
    simp at hlen
    omega

theorem parseLines_prepend_ok :
    ∀ (pre tl : List (List Char)), (∀ l ∈ pre, isOkE (parseLine l) = true) →
      ∀ e, parseLines tl = Except.error e → parseLines (pre ++ tl) = Except.error e := by
  intro pre
  induction pre with
  | nil => intro tl _ e he; simpa using he
  | cons l ls ih =>
    intro tl hok e he
    have hl : isOkE (parseLine l) = true := hok l (by simp)
    cases hpl : parseLine l with
    | error e2 => rw [hpl] at hl; simp [isOkE] at hl
    | ok r =>
      have hih := ih tl (fun x hx => hok x (by simp [hx])) e he
      simp [List.cons_append, parseLines, hpl, hih]

theorem parseLines_ok_all :
    ∀ (ls : List (List Char)) (recs : List Record), parseLines ls = Except.ok recs →
      ∀ l ∈ ls, isOkE (parseLine l) = true := by
  intro ls
  induction ls with
  | nil => intro recs _ l hl; simp at hl
  | cons x xs ih =>
    intro recs h l hl
    simp only [parseLines] at h
    cases hpx : parseLine x with
    | error e => rw [hpx] at h; simp at h
    | ok r =>
      rw [hpx] at h
      cases hxs : parseLines xs with
      | error e => rw [hxs] at h; simp at h
      | ok rs =>
        rcases List.mem_cons.mp hl with h2 | h2
        · subst h2
          simp [isOkE, hpx]
        · exact ih rs hxs l h2

/-! ## Helper lemmas: plugin list abort behavior -/

theorem pluginList_none_of_bad :
    ∀ (recs : List Record) (e : Record), e ∈ recs → e.mType = "ui" →
      (e.data[1]? = none ∨ ∃ d, e.data[1]? = some d ∧ pluginMatch d.data = none) →
      PluginList recs = none := by
  intro recs
  induction recs with
  | nil => intro e he _ _; simp at he
  | cons r rs ih =>
    intro e he hui hbad
    rcases List.mem_cons.mp he with h | h
    · subst h
      simp only [PluginList]
      rw [if_pos hui]
      rcases hbad with h1 | ⟨d, h1, h2⟩
      · rw [h1]
      · simp [h1, h2]
    · have htail : PluginList rs = none := ih e h hui hbad
      simp only [PluginList]
      by_cases hr : r.mType = "ui"
      · rw [if_pos hr]
        cases hd : r.data[1]? with
        | none => rfl
        | some d =>
          cases hm : pluginMatch d.data with
          | none => simp [hm]
          | some p => simp [hm, htail]
      · rw [if_neg hr]
        exact htail

theorem strLength_eq_zero_iff (s : String) : s.length = 0 ↔ s = "" := by
  rw [String.ext_iff]
  show s.data.length = 0 ↔ s.data = ("" : String).data
  rw [show ("" : String).data = [] from rfl]
  exact List.length_eq_zero

/-- One step of the Status fold on a provider-name record with data. -/
theorem statusStep_eq_provider {acc : List MachineStatus} {e : Record} {d : String}
    {ds : List String} (ht : e.target ≠ "") (hp : e.mType = "provider-name")
    (hdata : e.data = d :: ds) :
    statusStep acc e = some (updStatus (ensureStatus acc e.target) e.target
      (fun st => { st with Provider := d })) := by
  simp [statusStep, ht, hp, hdata]

/-- One step of the Status fold on a state record with data. -/
theorem statusStep_eq_state {acc : List MachineStatus} {e : Record} {d : String}
    {ds : List String} (ht : e.target ≠ "") (hs : e.mType = "state")
    (hdata : e.data = d :: ds) :
    statusStep acc e = some (updStatus (ensureStatus acc e.target) e.target
      (fun st => { st with State := ToMachineState d })) := by
  have hp : e.mType ≠ "provider-name" := by rw [hs]; decide
  simp [statusStep, ht, hp, hs, hdata]

/-- One step of the Status fold on a record of any other type. -/
theorem statusStep_eq_other {acc : List MachineStatus} {e : Record} (ht : e.target ≠ "")
    (hp : e.mType ≠ "provider-name") (hs : e.mType ≠ "state") :
    statusStep acc e = some (ensureStatus acc e.target) := by
  simp [statusStep, ht, hp, hs]

/-! ## Claim theorems -/

/-- C1 (counterexample): the claim predicts that a ui record whose second
data field does not match the plugin pattern is skipped while well-formed
plugin lines are still returned; on the code, the same well-formed record
alone yields its plugin, but adding the non-matching record makes the
whole extraction panic (nil match list indexed), modelled as `none`. -/
theorem c1_counterexample :
    PluginList [⟨0, "", "ui", ["info", "vagrant-share (1.1.9%!(VAGRANT_COMMA) system)"]⟩,
        ⟨0, "", "ui", ["info", "garbage"]⟩] = none ∧
    PluginList [⟨0, "", "ui", ["info", "vagrant-share (1.1.9%!(VAGRANT_COMMA) system)"]⟩] =
      some [⟨"vagrant-share", "1.1.9", "system"⟩] := by
  constructor
  · decide
  · decide

/-- C1 (amended): a record of type ui whose second data field is missing
or does not match the plugin-description pattern makes PluginList panic
(the Go index-out-of-range on the nil match list, modelled as `none`);
the record is not skipped and no partial result is returned. -/
theorem c1_bad_plugin_line_aborts (recs : List Record) (e : Record) (he : e ∈ recs)
    (hui : e.mType = "ui")
    (hbad : e.data[1]? = none ∨ ∃ d, e.data[1]? = some d ∧ pluginMatch d.data = none) :
    PluginList recs = none :=
  pluginList_none_of_bad recs e he hui hbad

/-- C1 (witness): the amended theorem applied to a concrete one-record
stream with a non-matching ui description. -/
theorem c1_witness :
    ((⟨0, "", "ui", ["info", "garbage"]⟩ : Record) ∈
      ([⟨0, "", "ui", ["info", "garbage"]⟩] : List Record)) ∧
    PluginList [⟨0, "", "ui", ["info", "garbage"]⟩] = none := by
  refine ⟨by simp, ?_⟩
  exact c1_bad_plugin_line_aborts [⟨0, "", "ui", ["info", "garbage"]⟩]
    ⟨0, "", "ui", ["info", "garbage"]⟩ (by simp) rfl
    (Or.inr ⟨"garbage", by decide, by decide⟩)

/-- C2 (counterexample): a machine-readable input whose parsed record
sequence has one distinct non-empty target but whose provider-name record
carries an empty data sequence; Status panics on data[0] (modelled as
`none`) instead of returning one entry named web. -/
theorem c2_counterexample :
    parseMachineReadable "0,web,provider-name," =
      Except.ok [⟨0, "web", "provider-name", []⟩] ∧
    buildStatuses [⟨0, "web", "provider-name", []⟩] = none ∧
    Status (fun _ _ => ProcOutcome.ok "0,web,provider-name," "") = none := by
  refine ⟨by decide, by decide, by decide⟩

/-- C2 (amended): provided every provider-name or state record with a
non-empty target carries at least one data element, buildStatuses returns
exactly one entry per distinct non-empty target: the names are distinct,
a name occurs exactly for the non-empty targets of the stream, and the
number of entries is the number of distinct non-empty targets; empty
targets contribute nothing. -/
theorem c2_status_entries (recs : List Record) (h : dataOk recs) :
    ∃ l, buildStatuses recs = some l ∧
      (l.map MachineStatus.Name).Nodup ∧
      (∀ t, t ∈ l.map MachineStatus.Name ↔ t ≠ "" ∧ t ∈ recs.map Record.target) ∧
      l.length = ((recs.map Record.target).filter (fun t => t ≠ "")).dedup.length := by
  obtain ⟨l, hl, hnames⟩ := statusFold_some_names recs [] h
  have hnodup : (l.map MachineStatus.Name).Nodup := by
    rw [hnames]
    exact insertTargets_nodup recs _ (by simp)
  have hmem : ∀ t, t ∈ l.map MachineStatus.Name ↔ t ≠ "" ∧ t ∈ recs.map Record.target := by
    intro t
    rw [hnames, mem_insertTargets]
    simp
  refine ⟨l, hl, hnodup, hmem, ?_⟩
  have hperm : List.Perm (l.map MachineStatus.Name)
      (((recs.map Record.target).filter (fun t => t ≠ "")).dedup) := by
    apply List.perm_of_nodup_nodup_toFinset_eq hnodup (List.nodup_dedup _)
    ext t
    simp only [List.mem_toFinset, List.mem_dedup, List.mem_filter, decide_eq_true_eq]
    rw [hmem t]
    constructor
    · rintro ⟨h1, h2⟩; exact ⟨h2, h1⟩
    · rintro ⟨h1, h2⟩; exact ⟨h2, h1⟩
  have hlen := hperm.length_eq
  simpa using hlen

/-- C2 (witness): the amended theorem applied to a concrete two-target
stream with an interleaved empty-target record. -/
theorem c2_witness :
    dataOk [⟨0, "web", "state", ["running"]⟩, ⟨0, "", "ui", ["info", "x"]⟩,
        ⟨0, "db", "provider-name", ["vb"]⟩] ∧
    ∃ l, buildStatuses [⟨0, "web", "state", ["running"]⟩, ⟨0, "", "ui", ["info", "x"]⟩,
        ⟨0, "db", "provider-name", ["vb"]⟩] = some l ∧
      (l.map MachineStatus.Name).Nodup ∧
      (∀ t, t ∈ l.map MachineStatus.Name ↔ t ≠ "" ∧
        t ∈ ([⟨0, "web", "state", ["running"]⟩, ⟨0, "", "ui", ["info", "x"]⟩,
          ⟨0, "db", "provider-name", ["vb"]⟩] : List Record).map Record.target) ∧
      l.length = ((([⟨0, "web", "state", ["running"]⟩, ⟨0, "", "ui", ["info", "x"]⟩,
          ⟨0, "db", "provider-name", ["vb"]⟩] : List Record).map Record.target).filter
            (fun t => t ≠ "")).dedup.length :=
  ⟨by decide, c2_status_entries _ (by decide)⟩

/-- C3: in one step of the Status fold on a record with a non-empty
target, a provider-name record with data sets the target entry's provider
to data[0] and preserves its state, a state record with data sets the
entry's state to the mapped data[0] and preserves its provider, and a
record of any other type succeeds and leaves the whole accumulated map
unchanged whenever the target already has an entry. -/
theorem c3_fold_step (acc : List MachineStatus) (e : Record) (ht : e.target ≠ "") :
    (∀ d ds, e.mType = "provider-name" → e.data = d :: ds →
      ∃ acc2, statusStep acc e = some acc2 ∧
        findStatus acc2 e.target = some ⟨e.target, d,
          ((findStatus acc e.target).map MachineStatus.State).getD MachineState.Unknown⟩) ∧
    (∀ d ds, e.mType = "state" → e.data = d :: ds →
      ∃ acc2, statusStep acc e = some acc2 ∧
        findStatus acc2 e.target = some ⟨e.target,
          ((findStatus acc e.target).map MachineStatus.Provider).getD "",
          ToMachineState d⟩) ∧
    (e.mType ≠ "provider-name" → e.mType ≠ "state" →
      ∃ acc2, statusStep acc e = some acc2 ∧
        ((findStatus acc e.target).isSome = true → acc2 = acc)) := by
  refine ⟨?_, ?_, ?_⟩
  · intro d ds hp hdata
    refine ⟨_, statusStep_eq_provider ht hp hdata, ?_⟩
    have hf : ∀ st : MachineStatus,
        ({ st with Provider := d } : MachineStatus).Name = st.Name := fun _ => rfl
    rw [findStatus_updStatus _ _ _ hf, findStatus_ensureStatus]
    cases hfind : findStatus acc e.target with
    | none => simp
    | some st =>
      have hn := findStatus_name acc e.target st hfind
      simp [hn]
  · intro d ds hs hdata
    refine ⟨_, statusStep_eq_state ht hs hdata, ?_⟩
    have hf : ∀ st : MachineStatus,
        ({ st with State := ToMachineState d } : MachineStatus).Name = st.Name := fun _ => rfl
    rw [findStatus_updStatus _ _ _ hf, findStatus_ensureStatus]
    cases hfind : findStatus acc e.target with
    | none => simp
    | some st =>
      have hn := findStatus_name acc e.target st hfind
      simp [hn]
  · intro hp hs
    refine ⟨_, statusStep_eq_other ht hp hs, ?_⟩
    intro hsome
    unfold ensureStatus
    rw [if_pos hsome]

/-- C3 (witness): the state part of the step theorem applied to a
concrete accumulator holding the target with a known provider. -/
theorem c3_witness :
    ((⟨0, "web", "state", ["running"]⟩ : Record).target ≠ "") ∧
    ∃ acc2, statusStep [(⟨"web", "vb", MachineState.Unknown⟩ : MachineStatus)]
        ⟨0, "web", "state", ["running"]⟩ = some acc2 ∧
      findStatus acc2 "web" = some ⟨"web", "vb", MachineState.Running⟩ := by
  refine ⟨by decide, ?_⟩
  have h := (c3_fold_step [⟨"web", "vb", MachineState.Unknown⟩]
    ⟨0, "web", "state", ["running"]⟩ (by decide)).2.1 "running" [] rfl rfl
  simpa [findStatus, ToMachineState] using h

/-- C4: pluckEntryData fails with EntryNotFoundError carrying the
requested type exactly when no record has that type; it returns the data
of the first matching record in stream order; and Version returns the
first element of the plucked data sequence. -/
theorem c4_pluck_first_match :
    (∀ (recs : List Record) (t : String),
      pluckEntryData recs t = Except.error (VagrantError.entryNotFound t) ↔
        ∀ r ∈ recs, r.mType ≠ t) ∧
    (∀ (pre : List Record) (r : Record) (post : List Record) (t : String),
      r.mType = t → (∀ r2 ∈ pre, r2.mType ≠ t) →
      pluckEntryData (pre ++ r :: post) t = Except.ok r.data) ∧
    (∀ (runner : Runner) (out errS : String) (recs : List Record) (d : String)
        (ds : List String),
      runner "vagrant" ["version", "--machine-readable"] = ProcOutcome.ok out errS →
      parseMachineReadable out = Except.ok recs →
      pluckEntryData recs "version-installed" = Except.ok (d :: ds) →
      Version runner = some (Except.ok d)) := by
  refine ⟨pluck_error_iff, pluck_first, ?_⟩
  intro runner out errS recs d ds hr hp hpl
  simp [Version, wrapperExec, Execute, hr, hp, hpl]

/-- C4 (witness): an end-to-end version lookup on a concrete stream
together with a not-found lookup on the same stream. -/
theorem c4_witness :
    parseMachineReadable "1700000000,,version-installed,2.3.0\n" =
      Except.ok [⟨1700000000, "", "version-installed", ["2.3.0"]⟩] ∧
    Version (fun _ _ => ProcOutcome.ok "1700000000,,version-installed,2.3.0\n" "") =
      some (Except.ok "2.3.0") ∧
    pluckEntryData [⟨1700000000, "", "version-installed", ["2.3.0"]⟩] "nope" =
      Except.error (VagrantError.entryNotFound "nope") := by
  refine ⟨by decide, ?_, ?_⟩
  · exact c4_pluck_first_match.2.2
      (fun _ _ => ProcOutcome.ok "1700000000,,version-installed,2.3.0\n" "")
      "1700000000,,version-installed,2.3.0\n" ""
      [⟨1700000000, "", "version-installed", ["2.3.0"]⟩] "2.3.0" [] rfl (by decide) (by decide)
  · exact (c4_pluck_first_match.1 _ "nope").mpr (by decide)

/-- C5 (counterexample): an input containing a line with fewer than 3
commas for which the whole parse fails, but with the timestamp error of
an earlier bad line rather than MalformedRecordError. -/
theorem c5_counterexample :
    parseMachineReadable "x,a,b,c\n1,2\n" =
      Except.error (VagrantError.timestampErr "x") ∧
    ("1,2".data ∈ linesOf "x,a,b,c\n1,2\n".data ∧ "1,2".data.count ',' < 3) := by
  refine ⟨by decide, by decide, by decide⟩

/-- C5 (amended): a line with fewer than 3 commas makes the whole parse
fail: no record sequence is ever produced, and the error is
MalformedRecordError carrying that line whenever every earlier line parses
(in particular whenever the malformed line comes first). -/
theorem c5_malformed_aborts (raw : String) :
    (∀ pre bad rest, linesOf raw.data = pre ++ bad :: rest →
      bad.count ',' < 3 →
      (∀ l ∈ pre, isOkE (parseLine l) = true) →
      parseMachineReadable raw = Except.error (VagrantError.malformed ⟨bad⟩)) ∧
    (∀ bad, bad ∈ linesOf raw.data → bad.count ',' < 3 →
      ∀ recs, parseMachineReadable raw ≠ Except.ok recs) := by
  constructor
  · intro pre bad rest hsplit hcount hok
    unfold parseMachineReadable
    rw [hsplit]
    apply parseLines_prepend_ok pre (bad :: rest) hok
    simp [parseLines, parseLine_malformed hcount]
  · intro bad hmem hcount recs hok
    have hall := parseLines_ok_all (linesOf raw.data) recs hok bad hmem
    rw [parseLine_malformed hcount] at hall
    simp [isOkE] at hall

/-- C5 (witness): the amended theorem applied to a concrete single-line
input with too few commas. -/
theorem c5_witness :
    linesOf ("1,2\n".data) = [] ++ "1,2".data :: [] ∧ ("1,2".data).count ',' < 3 ∧
    parseMachineReadable "1,2\n" = Except.error (VagrantError.malformed "1,2") := by
  refine ⟨by decide, by decide, ?_⟩
  exact (c5_malformed_aborts "1,2\n").1 [] ("1,2".data) [] (by decide) (by decide) (by simp)

/-- C6: the state-string mapping is total: each recognized lifecycle
state string maps to its enumeration variant and every other string maps
to the Unknown fallback; no input is rejected. -/
theorem c6_state_mapping_total :
    ToMachineState "running" = MachineState.Running ∧
    ToMachineState "poweroff" = MachineState.Poweroff ∧
    ToMachineState "saved" = MachineState.Saved ∧
    ToMachineState "aborted" = MachineState.Aborted ∧
    ToMachineState "not_created" = MachineState.NotCreated ∧
    ∀ s : String,
      s ∉ (["running", "poweroff", "saved", "aborted", "not_created"] : List String) →
      ToMachineState s = MachineState.Unknown := by
  refine ⟨by decide, by decide, by decide, by decide, by decide, ?_⟩
  intro s hs
  simp only [List.mem_cons, List.not_mem_nil, or_false, not_or] at hs
  obtain ⟨h1, h2, h3, h4, h5⟩ := hs
  simp [ToMachineState, h1, h2, h3, h4, h5]

/-- C6 (witness): the fallback part of the mapping theorem applied to an
unrecognized state string. -/
theorem c6_witness :
    ("weird" : String) ∉
      (["running", "poweroff", "saved", "aborted", "not_created"] : List String) ∧
    ToMachineState "weird" = MachineState.Unknown :=
  ⟨by decide, c6_state_mapping_total.2.2.2.2.2 "weird" (by decide)⟩

/-- C7: when the process runs but exits nonzero, Execute returns an
ExitError carrying the command name, exit code and captured standard
error, and Status, Version and PluginInstall propagate that error to the
caller unchanged. -/
theorem c7_exit_error_propagation :
    (∀ (cmd : String) (code : Int) (so se : String),
      Execute cmd (ProcOutcome.exited code so se) = some (so, some ⟨cmd, code, se⟩)) ∧
    (∀ (runner : Runner) (code : Int) (so se : String),
      runner "vagrant" ["status", "--machine-readable"] = ProcOutcome.exited code so se →
      Status runner = some (Except.error (VagrantError.exit ⟨"vagrant", code, se⟩))) ∧
    (∀ (runner : Runner) (code : Int) (so se : String),
      runner "vagrant" ["version", "--machine-readable"] = ProcOutcome.exited code so se →
      Version runner = some (Except.error (VagrantError.exit ⟨"vagrant", code, se⟩))) ∧
    (∀ (runner : Runner) (plugin : Plugin) (code : Int) (so se : String),
      plugin.Name ≠ "" →
      (∀ args, runner "vagrant" args = ProcOutcome.exited code so se) →
      (PluginInstall runner plugin).1 =
        some (Except.error (VagrantError.exit ⟨"vagrant", code, se⟩))) := by
  refine ⟨fun _ _ _ _ => rfl, ?_, ?_, ?_⟩
  · intro runner code so se h
    simp [Status, wrapperExec, Execute, h]
  · intro runner code so se h
    simp [Version, wrapperExec, Execute, h]
  · intro runner plugin code so se hname hr
    have hlen : ¬ plugin.Name.length = 0 := fun h0 =>
      hname ((strLength_eq_zero_iff _).mp h0)
    simp [PluginInstall, hlen, wrapperExec, Execute, hr]

/-- C7 (witness): the Status propagation applied to a concrete runner
that always exits with code 1 and error text boom. -/
theorem c7_witness :
    (fun (_ : String) (_ : List String) => ProcOutcome.exited 1 "" "boom") "vagrant"
        ["status", "--machine-readable"] = ProcOutcome.exited 1 "" "boom" ∧
    Status (fun _ _ => ProcOutcome.exited 1 "" "boom") =
      some (Except.error (VagrantError.exit ⟨"vagrant", 1, "boom"⟩)) :=
  ⟨rfl, c7_exit_error_propagation.2.1 _ 1 "" "boom" rfl⟩

/-- C8 (counterexample): a field equal to the comma escape token itself
breaks the encode-join-decode-split round trip: the decoded list holds a
bare comma instead of the original token text. -/
theorem c8_counterexample :
    parseDataField (joinWith [','] (([ctChars] : List (List Char)).map encodeField)) =
      [[',']] ∧
    ([[',']] : List (List Char)) ≠ [ctChars] := by
  refine ⟨by decide, by decide⟩

/-- C8 (amended): for every list of fields in which no field contains
either escape token as substring text, other than the single empty field
list (whose join collides with the empty-data convention), encoding each
field, joining with commas and applying the parser's decode-and-split
step reproduces the original field list exactly, including fields with
commas, newlines, or both. -/
theorem c8_roundtrip (l : List (List Char))
    (hTok : ∀ f ∈ l, containsTok ctChars f = false ∧ containsTok nlChars f = false)
    (hne : l ≠ [[]]) :
    parseDataField (joinWith [','] (l.map encodeField)) = l := by
  by_cases h0 : l = []
  · subst h0
    rfl
  · have hj := joinWith_encode_ne_nil h0 hne
    unfold parseDataField
    rw [if_neg (by simpa using hj)]
    rw [splitOnChar_joinWith ',' (l.map encodeField) (by simpa using h0)
      (by
        intro e he
        rw [List.mem_map] at he
        obtain ⟨f, _, rfl⟩ := he
        exact comma_not_mem_encodeField f)]
    rw [List.map_map]
    have hid : ∀ f ∈ l, (decodeField ∘ encodeField) f = f := by
      intro f hf
      obtain ⟨h1, h2⟩ := hTok f hf
      exact decodeField_encodeField h1 h2
    rw [List.map_congr_left hid]
    simp

/-- C8 (witness): the round trip on concrete fields containing a comma
and a newline. -/
theorem c8_witness :
    (∀ f ∈ (["ab,c".data, "d\ne".data] : List (List Char)),
      containsTok ctChars f = false ∧ containsTok nlChars f = false) ∧
    (["ab,c".data, "d\ne".data] : List (List Char)) ≠ [[]] ∧
    parseDataField
        (joinWith [','] ((["ab,c".data, "d\ne".data] : List (List Char)).map encodeField)) =
      ["ab,c".data, "d\ne".data] :=
  ⟨by decide, by decide, c8_roundtrip _ (by decide) (by decide)⟩

/-- C9: PluginInstall on a plugin with an empty name returns the
plugin-must-have-a-name error and dispatches no command at all. -/
theorem c9_plugin_install_empty_name (runner : Runner) (plugin : Plugin)
    (h : plugin.Name = "") :
    (PluginInstall runner plugin).1 =
      some (Except.error (VagrantError.msg "plugin must have a name")) ∧
    (PluginInstall runner plugin).2 = [] := by
  have hlen : plugin.Name.length = 0 := (strLength_eq_zero_iff _).mpr h
  constructor <;> simp [PluginInstall, hlen]

/-- C9 (witness): the theorem applied to a concrete nameless plugin and a
concrete runner. -/
theorem c9_witness :
    ((⟨"", "1.0", "local"⟩ : Plugin).Name = "") ∧
    ((PluginInstall (fun _ _ => ProcOutcome.ok "" "") ⟨"", "1.0", "local"⟩).1 =
      some (Except.error (VagrantError.msg "plugin must have a name")) ∧
    (PluginInstall (fun _ _ => ProcOutcome.ok "" "") ⟨"", "1.0", "local"⟩).2 = []) :=
  ⟨rfl, c9_plugin_install_empty_name _ _ rfl⟩

/-- C10: under the precondition that every record with a non-empty target
and type provider-name or state has at least one data element, the Status
fold always succeeds from any accumulator: the data[0] accesses are in
bounds and the out-of-range branch (`none`) is unreachable. -/
theorem c10_data_access_safe (recs : List Record) (acc : List MachineStatus)
    (h : dataOk recs) : (statusFold recs acc).isSome = true := by
  obtain ⟨l, hl, _⟩ := statusFold_some_names recs acc h
  simp [hl]

/-- C10 (witness): the safety theorem applied to a concrete record
stream satisfying the precondition. -/
theorem c10_witness :
    dataOk [⟨0, "web", "provider-name", ["vb"]⟩, ⟨0, "web", "state", ["running"]⟩] ∧
    (statusFold [⟨0, "web", "provider-name", ["vb"]⟩, ⟨0, "web", "state", ["running"]⟩]
      []).isSome = true :=
  ⟨by decide, c10_data_access_safe _ _ (by decide)⟩

end VagrantExec
